import Mathlib

/-!
Verification of the command-line assembly and dispatch layer of
j4-dmenu-desktop against its specification.  The definitions below are
shallow embeddings of the functions in src/CMDLineAssembler.cc,
src/ParsingQuirks.hh and src/main.cc; strings are modelled as their
character sequences (`String.data`).
-/

namespace CMDLineAssembly

/-- The single-quote character, written via its code point. -/
def squote : Char := Char.ofNat 39

/-- The backslash character. -/
def bslash : Char := Char.ofNat 92

/-- The backtick character, written via its code point. -/
def btick : Char := Char.ofNat 96

/-- Embedding of the loop of `sq_quote` (CMDLineAssembler.cc, lines 41-65).
The C++ code locates the next single quote with `find` and copies the
quote-free chunk before it wholesale; this embedding performs the same case
split one character at a time.  A single quote that is the final character
produces the three-character tail quote-backslash-quote with no closing
quote (the `where == input.size() - 1` branch); an interior single quote
produces the four-character escape and continues on the remainder (the
`substr(where + 1)` branch); when no quote remains the input is copied and
closed with a final quote (the `npos` branch). -/
def sqQuoteLoop : List Char → List Char
  | [] => [squote]
  | [c] =>
    if c = squote then [squote, bslash, squote]
    else [c, squote]
  | c :: c2 :: cs =>
    if c = squote then squote :: bslash :: squote :: squote :: sqQuoteLoop (c2 :: cs)
    else c :: sqQuoteLoop (c2 :: cs)

/-- Embedding of `sq_quote` (CMDLineAssembler.cc, lines 31-66): an opening
single quote followed by the body produced by the loop. -/
def sq_quote (s : String) : String := String.mk (squote :: sqQuoteLoop s.data)

/-- Parser state of the POSIX shell word-splitting model. -/
inductive ShState
  | out
  | inSq
  | inDq
  | escOut
  | escDq
deriving DecidableEq

/-- Modelled from the spec: POSIX `sh` word splitting of a single simple
command, covering exactly the constructs that the spec appeals to when it
says a quoted string "evaluates back" to the original (quote removal for
single quotes, double quotes and backslash; blanks separate fields).  No
expansions or operators are modelled; none of the strings fed to the model
contain them unquoted.  Returns `none` for an unterminated quote or a
trailing backslash.  The accumulator `curr` is the current field and
`started` records whether the current field has begun (so that quoted
empty fields are kept). -/
def shSplitAux : List Char → ShState → List Char → Bool → Option (List String)
  | [], .out, curr, started =>
    some (if started then [String.mk curr] else [])
  | [], _, _, _ => none
  | c :: cs, .out, curr, started =>
    if c = ' ' ∨ c = Char.ofNat 9 then
      match shSplitAux cs .out [] false with
      | none => none
      | some r => some (if started then String.mk curr :: r else r)
    else if c = squote then shSplitAux cs .inSq curr true
    else if c = '"' then shSplitAux cs .inDq curr true
    else if c = bslash then shSplitAux cs .escOut curr true
    else shSplitAux cs .out (curr ++ [c]) true
  | c :: cs, .inSq, curr, started =>
    if c = squote then shSplitAux cs .out curr started
    else shSplitAux cs .inSq (curr ++ [c]) started
  | c :: cs, .inDq, curr, started =>
    if c = '"' then shSplitAux cs .out curr started
    else if c = bslash then shSplitAux cs .escDq curr started
    else shSplitAux cs .inDq (curr ++ [c]) started
  | c :: cs, .escOut, curr, _ => shSplitAux cs .out (curr ++ [c]) true
  | c :: cs, .escDq, curr, started =>
    if c = '"' ∨ c = bslash ∨ c = '$' ∨ c = btick then
      shSplitAux cs .inDq (curr ++ [c]) started
    else shSplitAux cs .inDq (curr ++ [bslash, c]) started

/-- Word splitting of a whole string, starting outside any quote with an
empty, not-yet-started field. -/
def shSplit (s : String) : Option (List String) := shSplitAux s.data .out [] false

theorem shSplitAux_inSq_squote (cs curr : List Char) (started : Bool) :
    shSplitAux (squote :: cs) .inSq curr started = shSplitAux cs .out curr started := by
  simp [shSplitAux]

theorem shSplitAux_inSq_other {c : Char} (h : c ≠ squote) (cs curr : List Char)
    (started : Bool) :
    shSplitAux (c :: cs) .inSq curr started
      = shSplitAux cs .inSq (curr ++ [c]) started := by
  simp [shSplitAux, h]

theorem shSplitAux_out_squote (cs curr : List Char) (started : Bool) :
    shSplitAux (squote :: cs) .out curr started = shSplitAux cs .inSq curr true := by
  have h1 : ¬ (squote = ' ' ∨ squote = Char.ofNat 9) := by decide
  simp [shSplitAux, h1]

theorem shSplitAux_out_bslash (cs curr : List Char) (started : Bool) :
    shSplitAux (bslash :: cs) .out curr started = shSplitAux cs .escOut curr true := by
  have h1 : ¬ (bslash = ' ' ∨ bslash = Char.ofNat 9) := by decide
  have h2 : bslash ≠ squote := by decide
  have h3 : bslash ≠ '"' := by decide
  simp [shSplitAux, h1, h2, h3]

theorem shSplitAux_escOut (c : Char) (cs curr : List Char) (started : Bool) :
    shSplitAux (c :: cs) .escOut curr started
      = shSplitAux cs .out (curr ++ [c]) true := by
  simp [shSplitAux]

theorem sqQuoteLoop_parse (t : List Char) :
    ∀ rest curr, shSplitAux (sqQuoteLoop t ++ rest) .inSq curr true
      = shSplitAux rest .out (curr ++ t) true := by
  induction t with
  | nil =>
    intro rest curr
    simp only [sqQuoteLoop, List.cons_append, List.nil_append, List.append_nil]
    rw [shSplitAux_inSq_squote]
  | cons c cs ih =>
    intro rest curr
    cases cs with
    | nil =>
      by_cases hc : c = squote
      · subst hc
        simp only [sqQuoteLoop, if_pos rfl, if_true, List.cons_append, List.nil_append]
        rw [shSplitAux_inSq_squote, shSplitAux_out_bslash, shSplitAux_escOut]
      · simp only [sqQuoteLoop, if_neg hc, List.cons_append, List.nil_append]
        rw [shSplitAux_inSq_other hc, shSplitAux_inSq_squote]
    | cons c2 cs2 =>
      by_cases hc : c = squote
      · subst hc
        simp only [sqQuoteLoop, if_pos rfl, if_true, List.cons_append]
        rw [shSplitAux_inSq_squote, shSplitAux_out_bslash, shSplitAux_escOut,
          shSplitAux_out_squote, ih]
        simp
      · simp only [sqQuoteLoop, if_neg hc, List.cons_append]
        rw [shSplitAux_inSq_other hc, ih]
        simp

theorem sq_quote_parse (t : List Char) (rest : List Char) (curr : List Char)
    (started : Bool) :
    shSplitAux ((squote :: sqQuoteLoop t) ++ rest) .out curr started
      = shSplitAux rest .out (curr ++ t) true := by
  simp only [List.cons_append]
  rw [shSplitAux_out_squote, sqQuoteLoop_parse]

/-- C1: for every string `s`, `sq_quote s` is a single shell word that the
POSIX-sh word-splitting model evaluates back to `s`, and the quoting
algorithm produces exactly the outputs stated in the spec on its three
examples: an embedded quote becomes quote-backslash-quote-quote, a trailing
quote becomes quote-backslash-quote with no closing quote, and a string
without quotes is simply wrapped. -/
theorem sq_quote_roundtrip :
    (∀ s : String, shSplit (sq_quote s) = some [s]) ∧
    sq_quote "it\x27s a test" = "\x27it\x27\\\x27\x27s a test\x27" ∧
    sq_quote "end\x27" = "\x27end\x27\\\x27" ∧
    sq_quote "plain" = "\x27plain\x27" := by
  refine ⟨?_, by decide, by decide, by decide⟩
  intro s
  show shSplitAux (squote :: sqQuoteLoop s.data) .out [] false = some [s]
  rw [show (squote :: sqQuoteLoop s.data) = (squote :: sqQuoteLoop s.data) ++ [] by simp]
  rw [sq_quote_parse]
  simp [shSplitAux]

/-- Embedding of `convert_argv_to_string` (CMDLineAssembler.cc, lines
218-227): the empty vector gives the empty string; otherwise the first
token is quoted and each further token is appended after a single space. -/
def convert_argv_to_string : List String → String
  | [] => ""
  | c :: cs => cs.foldl (fun acc t => acc ++ " " ++ sq_quote t) (sq_quote c)

theorem strData_append (a b : String) : (a ++ b).data = a.data ++ b.data := rfl

/-- Character sequence appended after the quoted first token: a space and a
quoted token for each remaining token. -/
def joinTailChars : List String → List Char
  | [] => []
  | t :: ts => ' ' :: ((squote :: sqQuoteLoop t.data) ++ joinTailChars ts)

theorem convert_argv_foldl_data (cs : List String) :
    ∀ acc : String,
      (cs.foldl (fun a t => a ++ " " ++ sq_quote t) acc).data
        = acc.data ++ joinTailChars cs := by
  induction cs with
  | nil => intro acc; simp [joinTailChars]
  | cons t ts ih =>
    intro acc
    simp only [List.foldl_cons, joinTailChars, ih, strData_append]
    simp [sq_quote]

theorem shSplitAux_out_space (cs curr : List Char) (started : Bool) :
    shSplitAux (' ' :: cs) .out curr started
      = match shSplitAux cs .out [] false with
        | none => none
        | some r => some (if started then String.mk curr :: r else r) := by
  have h1 : (' ' = ' ' ∨ ' ' = Char.ofNat 9) := Or.inl rfl
  simp [shSplitAux, h1]

theorem shSplit_joinTail (cs : List String) :
    ∀ curr, shSplitAux (joinTailChars cs) .out curr true = some (String.mk curr :: cs) := by
  induction cs with
  | nil => intro curr; simp [joinTailChars, shSplitAux]
  | cons t ts ih =>
    intro curr
    show shSplitAux (' ' :: ((squote :: sqQuoteLoop t.data) ++ joinTailChars ts)) .out curr true
      = some (String.mk curr :: t :: ts)
    rw [shSplitAux_out_space, sq_quote_parse]
    simp [ih t.data]

/-- For every token list, quoting each token and joining with single spaces
produces a string the shell model splits back into the same list. -/
theorem argv_to_string_roundtrip (ts : List String) :
    shSplit (convert_argv_to_string ts) = some ts := by
  cases ts with
  | nil => simp [convert_argv_to_string, shSplit, shSplitAux]
  | cons c cs =>
    show shSplitAux (convert_argv_to_string (c :: cs)).data .out [] false = some (c :: cs)
    rw [show (convert_argv_to_string (c :: cs)).data
        = (squote :: sqQuoteLoop c.data) ++ joinTailChars cs from convert_argv_foldl_data cs (sq_quote c)]
    rw [sq_quote_parse]
    simp only [List.nil_append, shSplit_joinTail cs c.data]

/-- Embedding of `ParsingQuirks` (ParsingQuirks.hh). -/
structure ParsingQuirks where
  extra_wine_escaping : Bool
  multiple_spaces_in_exec : Bool

/-- Embedding of the loop of `validate_exec_key` (CMDLineAssembler.cc, lines
68-110).  The Boolean argument is `in_quotes` and the numeral is the index
`i` of the current character, used only for the error messages.  An escape
sequence inside quotes consumes two characters, matching the `++i` in the
C++ loop body. -/
def validateLoop : List Char → Bool → Nat → Option String
  | [], true, _ =>
    some "\"\" qouted string is missing the end quote in the Exec field."
  | [], false, _ => none
  | c :: cs, true, i =>
    if c = bslash then
      match cs with
      | [] =>
        some "Escape character \x27\\\x27 found at enf of line! Nothing to escape!"
      | c2 :: cs2 =>
        if c2 = '"' ∨ c2 = btick ∨ c2 = '$' ∨ c2 = bslash then
          validateLoop cs2 true (i + 2)
        else
          some ("Found invalid escape sequence \x27\\" ++ String.singleton c2
            ++ "\x27 on characters " ++ toString (i + 1) ++ "-" ++ toString (i + 2)
            ++ " in the Exec field (character count is counted excluding \"Exec=\" part).")
    else if c = '"' then validateLoop cs false (i + 1)
    else validateLoop cs true (i + 1)
  | c :: cs, false, i =>
    if c = '"' then validateLoop cs true (i + 1)
    else if c = bslash then
      some ("Found unquoted escape sequence on character " ++ toString (i + 1)
        ++ " in the Exec field (character count is counted excluding \"Exec=\" part)")
    else validateLoop cs false (i + 1)

/-- Embedding of `validate_exec_key` (CMDLineAssembler.cc, lines 68-110):
scan starting outside quotes at index 0; `none` means the Exec key is
valid, `some msg` carries the diagnostic. -/
def validate_exec_key (e : String) : Option String := validateLoop e.data false 0

/-- Embedding of the loop of `convert_exec_to_command` (CMDLineAssembler.cc,
lines 112-212).  The two Booleans are `escaping` and `in_quotes`, `curr` is
the current token and the thrown `invalid_Exec` exception is modelled as
`Except.error`.  At end of input the non-empty current token is emitted and
the quoting state is ignored, exactly as in the C++ code.  In the
`escaping` state a character with no `case` label is consumed without
appending anything. -/
def convertLoop : List Char → Bool → Bool → List Char → ParsingQuirks →
    Except String (List String)
  | [], _, _, curr, _ =>
    .ok (if curr.isEmpty then [] else [String.mk curr])
  | c :: cs, true, inq, curr, q =>
    if c = '"' ∨ c = btick ∨ c = '$' ∨ c = bslash then
      convertLoop cs false inq (curr ++ [c]) q
    else if c = ' ' then
      if q.extra_wine_escaping then convertLoop cs false inq (curr ++ [c]) q
      else .error "Found invalid escape sequence `\\ ` in the Exec key!"
    else convertLoop cs false inq curr q
  | c :: cs, false, true, curr, q =>
    if c = '"' then convertLoop cs false false curr q
    else if c = bslash then convertLoop cs true true curr q
    else convertLoop cs false true (curr ++ [c]) q
  | c :: cs, false, false, curr, q =>
    if c = '"' then convertLoop cs false true curr q
    else if c = ' ' then
      if q.multiple_spaces_in_exec ∧ curr.isEmpty then convertLoop cs false false curr q
      else
        match convertLoop cs false false [] q with
        | .ok r => .ok (String.mk curr :: r)
        | .error msg => .error msg
    else if c = bslash then
      if q.extra_wine_escaping then convertLoop cs true false curr q
      else .error "Found \x27\\\x27 unquoted in Exec!"
    else convertLoop cs false false (curr ++ [c]) q

/-- Embedding of `convert_exec_to_command` (CMDLineAssembler.cc, lines
112-212): run the loop from the initial state (not escaping, not in
quotes, empty current token). -/
def convert_exec_to_command (e : String) (q : ParsingQuirks) :
    Except String (List String) :=
  convertLoop e.data false false [] q

theorem validateLoop_esc_end (i : Nat) : validateLoop [bslash] true i ≠ none := by
  simp [validateLoop]

theorem validateLoop_esc_ok (c2 : Char) (cs2 : List Char) (i : Nat)
    (h2 : c2 = '"' ∨ c2 = btick ∨ c2 = '$' ∨ c2 = bslash) :
    validateLoop (bslash :: c2 :: cs2) true i = validateLoop cs2 true (i + 2) := by
  simp [validateLoop, h2]

theorem validateLoop_esc_bad (c2 : Char) (cs2 : List Char) (i : Nat)
    (h2 : ¬ (c2 = '"' ∨ c2 = btick ∨ c2 = '$' ∨ c2 = bslash)) :
    validateLoop (bslash :: c2 :: cs2) true i ≠ none := by
  simp [validateLoop, h2]

theorem validateLoop_dq_true (cs : List Char) (i : Nat) :
    validateLoop ('"' :: cs) true i = validateLoop cs false (i + 1) := by
  have h : ¬ ('"' = bslash) := by decide
  cases cs <;> simp [validateLoop, h]

theorem validateLoop_other_true {c : Char} (hb : c ≠ bslash) (hq : c ≠ '"')
    (cs : List Char) (i : Nat) :
    validateLoop (c :: cs) true i = validateLoop cs true (i + 1) := by
  cases cs <;> simp [validateLoop, hb, hq]

theorem validateLoop_dq_false (cs : List Char) (i : Nat) :
    validateLoop ('"' :: cs) false i = validateLoop cs true (i + 1) := by
  cases cs <;> simp [validateLoop]

theorem validateLoop_bslash_false (cs : List Char) (i : Nat) :
    validateLoop (bslash :: cs) false i ≠ none := by
  have h : ¬ (bslash = '"') := by decide
  cases cs <;> simp [validateLoop, h]

theorem validateLoop_other_false {c : Char} (hq : c ≠ '"') (hb : c ≠ bslash)
    (cs : List Char) (i : Nat) :
    validateLoop (c :: cs) false i = validateLoop cs false (i + 1) := by
  cases cs <;> simp [validateLoop, hq, hb]

theorem convertLoop_nil (esc inq : Bool) (curr : List Char) (q : ParsingQuirks) :
    convertLoop [] esc inq curr q
      = .ok (if curr.isEmpty then [] else [String.mk curr]) := by
  simp [convertLoop]

theorem convertLoop_esc_allowed {c : Char}
    (h : c = '"' ∨ c = btick ∨ c = '$' ∨ c = bslash) (cs : List Char)
    (inq : Bool) (curr : List Char) (q : ParsingQuirks) :
    convertLoop (c :: cs) true inq curr q = convertLoop cs false inq (curr ++ [c]) q := by
  simp [convertLoop, h]

theorem convertLoop_esc_space_wine {q : ParsingQuirks}
    (hw : q.extra_wine_escaping = true) (cs : List Char) (inq : Bool)
    (curr : List Char) :
    convertLoop (' ' :: cs) true inq curr q = convertLoop cs false inq (curr ++ [' ']) q := by
  have h1 : ¬ (' ' = '"') := by decide
  have h2 : ¬ (' ' = btick) := by decide
  have h3 : ¬ (' ' = '$') := by decide
  have h4 : ¬ (' ' = bslash) := by decide
  simp [convertLoop, h1, h2, h3, h4, hw]

theorem convertLoop_esc_space_nowine {q : ParsingQuirks}
    (hw : q.extra_wine_escaping = false) (cs : List Char) (inq : Bool)
    (curr : List Char) :
    convertLoop (' ' :: cs) true inq curr q
      = .error "Found invalid escape sequence `\\ ` in the Exec key!" := by
  have h1 : ¬ (' ' = '"') := by decide
  have h2 : ¬ (' ' = btick) := by decide
  have h3 : ¬ (' ' = '$') := by decide
  have h4 : ¬ (' ' = bslash) := by decide
  simp [convertLoop, h1, h2, h3, h4, hw]

theorem convertLoop_esc_other {c : Char}
    (h : ¬ (c = '"' ∨ c = btick ∨ c = '$' ∨ c = bslash)) (hsp : c ≠ ' ')
    (cs : List Char) (inq : Bool) (curr : List Char) (q : ParsingQuirks) :
    convertLoop (c :: cs) true inq curr q = convertLoop cs false inq curr q := by
  simp [convertLoop, h, hsp]

theorem convertLoop_inq_quote (cs : List Char) (curr : List Char) (q : ParsingQuirks) :
    convertLoop ('"' :: cs) false true curr q = convertLoop cs false false curr q := by
  simp [convertLoop]

theorem convertLoop_inq_bslash (cs : List Char) (curr : List Char) (q : ParsingQuirks) :
    convertLoop (bslash :: cs) false true curr q = convertLoop cs true true curr q := by
  have h : ¬ (bslash = '"') := by decide
  simp [convertLoop, h]

theorem convertLoop_inq_other {c : Char} (hq : c ≠ '"') (hb : c ≠ bslash)
    (cs : List Char) (curr : List Char) (q : ParsingQuirks) :
    convertLoop (c :: cs) false true curr q = convertLoop cs false true (curr ++ [c]) q := by
  simp [convertLoop, hq, hb]

theorem convertLoop_out_quote (cs : List Char) (curr : List Char) (q : ParsingQuirks) :
    convertLoop ('"' :: cs) false false curr q = convertLoop cs false true curr q := by
  simp [convertLoop]

theorem convertLoop_out_space_skip {q : ParsingQuirks} {curr : List Char}
    (hms : q.multiple_spaces_in_exec = true) (hce : curr.isEmpty = true)
    (cs : List Char) :
    convertLoop (' ' :: cs) false false curr q = convertLoop cs false false curr q := by
  have h : ¬ (' ' = '"') := by decide
  simp [convertLoop, h, hms, hce]

theorem convertLoop_out_space_ok {q : ParsingQuirks} {curr : List Char}
    {cs : List Char} {r : List String}
    (hcond : ¬ (q.multiple_spaces_in_exec = true ∧ curr.isEmpty = true))
    (hm : convertLoop cs false false [] q = .ok r) :
    convertLoop (' ' :: cs) false false curr q = .ok (String.mk curr :: r) := by
  have h : ¬ (' ' = '"') := by decide
  simp only [convertLoop, if_neg h, if_pos rfl, if_true, if_neg hcond, hm]

theorem convertLoop_out_space_err {q : ParsingQuirks} {curr : List Char}
    {cs : List Char} {m : String}
    (hcond : ¬ (q.multiple_spaces_in_exec = true ∧ curr.isEmpty = true))
    (hm : convertLoop cs false false [] q = .error m) :
    convertLoop (' ' :: cs) false false curr q = .error m := by
  have h : ¬ (' ' = '"') := by decide
  simp only [convertLoop, if_neg h, if_pos rfl, if_true, if_neg hcond, hm]

theorem convertLoop_out_bslash_wine {q : ParsingQuirks}
    (hw : q.extra_wine_escaping = true) (cs : List Char) (curr : List Char) :
    convertLoop (bslash :: cs) false false curr q = convertLoop cs true false curr q := by
  have h1 : ¬ (bslash = '"') := by decide
  have h2 : ¬ (bslash = ' ') := by decide
  simp [convertLoop, h1, h2, hw]

theorem convertLoop_out_bslash_nowine {q : ParsingQuirks}
    (hw : q.extra_wine_escaping = false) (cs : List Char) (curr : List Char) :
    convertLoop (bslash :: cs) false false curr q
      = .error "Found \x27\\\x27 unquoted in Exec!" := by
  have h1 : ¬ (bslash = '"') := by decide
  have h2 : ¬ (bslash = ' ') := by decide
  simp [convertLoop, h1, h2, hw]

theorem convertLoop_out_other {c : Char} (hq : c ≠ '"') (hsp : c ≠ ' ')
    (hb : c ≠ bslash) (cs : List Char) (curr : List Char) (q : ParsingQuirks) :
    convertLoop (c :: cs) false false curr q
      = convertLoop cs false false (curr ++ [c]) q := by
  simp [convertLoop, hq, hsp, hb]

theorem validateLoop_none_convertLoop_ok :
    ∀ n (cs : List Char), cs.length ≤ n → ∀ inq i curr,
      validateLoop cs inq i = none →
      ∃ r, convertLoop cs false inq curr ⟨false, false⟩ = .ok r := by
  intro n
  induction n with
  | zero =>
    intro cs hlen inq i curr _
    have hnil : cs = [] := List.length_eq_zero.mp (Nat.le_zero.mp hlen)
    subst hnil
    exact ⟨_, convertLoop_nil _ _ _ _⟩
  | succ n ih =>
    intro cs hlen inq i curr hv
    cases cs with
    | nil => exact ⟨_, convertLoop_nil _ _ _ _⟩
    | cons c cs =>
      have hlen1 : cs.length ≤ n := by
        simp only [List.length_cons] at hlen; omega
      cases inq with
      | true =>
        by_cases hb : c = bslash
        · subst hb
          cases cs with
          | nil => exact absurd hv (validateLoop_esc_end i)
          | cons c2 cs2 =>
            have hlen2 : cs2.length ≤ n := by
              simp only [List.length_cons] at hlen; omega
            by_cases h2 : c2 = '"' ∨ c2 = btick ∨ c2 = '$' ∨ c2 = bslash
            · have hv2 : validateLoop cs2 true (i + 2) = none := by
                rwa [validateLoop_esc_ok c2 cs2 i h2] at hv
              obtain ⟨r, hr⟩ := ih cs2 hlen2 true (i + 2) (curr ++ [c2]) hv2
              exact ⟨r, by rw [convertLoop_inq_bslash, convertLoop_esc_allowed h2]; exact hr⟩
            · exact absurd hv (validateLoop_esc_bad c2 cs2 i h2)
        · by_cases hq : c = '"'
          · subst hq
            have hv1 : validateLoop cs false (i + 1) = none := by
              rwa [validateLoop_dq_true] at hv
            obtain ⟨r, hr⟩ := ih cs hlen1 false (i + 1) curr hv1
            exact ⟨r, by rw [convertLoop_inq_quote]; exact hr⟩
          · have hv1 : validateLoop cs true (i + 1) = none := by
              rwa [validateLoop_other_true hb hq] at hv
            obtain ⟨r, hr⟩ := ih cs hlen1 true (i + 1) (curr ++ [c]) hv1
            exact ⟨r, by rw [convertLoop_inq_other hq hb]; exact hr⟩
      | false =>
        by_cases hq : c = '"'
        · subst hq
          have hv1 : validateLoop cs true (i + 1) = none := by
            rwa [validateLoop_dq_false] at hv
          obtain ⟨r, hr⟩ := ih cs hlen1 true (i + 1) curr hv1
          exact ⟨r, by rw [convertLoop_out_quote]; exact hr⟩
        · by_cases hb : c = bslash
          · subst hb
            exact absurd hv (validateLoop_bslash_false cs i)
          · have hv1 : validateLoop cs false (i + 1) = none := by
              rwa [validateLoop_other_false hq hb] at hv
            by_cases hsp : c = ' '
            · subst hsp
              obtain ⟨r, hr⟩ := ih cs hlen1 false (i + 1) ([] : List Char) hv1
              exact ⟨String.mk curr :: r, convertLoop_out_space_ok (by simp) hr⟩
            · obtain ⟨r, hr⟩ := ih cs hlen1 false (i + 1) (curr ++ [c]) hv1
              exact ⟨r, by rw [convertLoop_out_other hq hsp hb]; exact hr⟩

/-- C3: every Exec field accepted by `validate_exec_key` is tokenized by
`convert_exec_to_command` with both quirks disabled without raising
`invalid_Exec`, and quoting the resulting tokens with `sq_quote` and
joining them with single spaces yields a string that the POSIX-sh
word-splitting model splits back into exactly the same token list. -/
theorem exec_tokenize_roundtrip (e : String) (h : validate_exec_key e = none) :
    ∃ ts, convert_exec_to_command e ⟨false, false⟩ = .ok ts ∧
      shSplit (convert_argv_to_string ts) = some ts := by
  obtain ⟨r, hr⟩ :=
    validateLoop_none_convertLoop_ok e.data.length e.data le_rfl false 0 [] h
  exact ⟨r, hr, argv_to_string_roundtrip r⟩

/-- Witness for C3 at the Exec field with a double-quoted argument. -/
theorem exec_tokenize_roundtrip_witness :
    validate_exec_key "echo \"hello world\"" = none ∧
    ∃ ts, convert_exec_to_command "echo \"hello world\"" ⟨false, false⟩ = .ok ts ∧
      shSplit (convert_argv_to_string ts) = some ts :=
  ⟨rfl, exec_tokenize_roundtrip "echo \"hello world\"" rfl⟩

/-- Counterexample to C5: with both quirks disabled, a space outside quotes
finalizes the current token even when it is empty, so the Exec field with
two consecutive spaces produces an empty element in the argument vector. -/
theorem convert_empty_token_counterexample :
    convert_exec_to_command "a  b" ⟨false, false⟩ = .ok ["a", "", "b"] ∧
    ("" : String) ∈ ["a", "", "b"] :=
  ⟨rfl, by decide⟩

theorem string_mk_ne_empty {curr : List Char} (hce : ¬ curr.isEmpty = true) :
    String.mk curr ≠ "" := by
  intro habs
  have hdata : curr = [] := by simpa using congrArg String.data habs
  simp [hdata] at hce

theorem convertLoop_ms_no_empty_token (q : ParsingQuirks)
    (hq : q.multiple_spaces_in_exec = true) :
    ∀ cs esc inq curr r, convertLoop cs esc inq curr q = .ok r →
      ∀ t ∈ r, t ≠ "" := by
  intro cs
  induction cs with
  | nil =>
    intro esc inq curr r h t ht
    rw [convertLoop_nil] at h
    simp only [Except.ok.injEq] at h
    subst h
    by_cases hce : curr.isEmpty
    · simp [hce] at ht
    · rw [if_neg hce] at ht
      have heq := List.mem_singleton.mp ht
      subst heq
      exact string_mk_ne_empty hce
  | cons c cs ih =>
    intro esc inq curr r h t ht
    cases esc with
    | true =>
      by_cases h1 : c = '"' ∨ c = btick ∨ c = '$' ∨ c = bslash
      · rw [convertLoop_esc_allowed h1] at h
        exact ih false inq (curr ++ [c]) r h t ht
      · by_cases hsp : c = ' '
        · subst hsp
          cases hw : q.extra_wine_escaping with
          | true =>
            rw [convertLoop_esc_space_wine hw] at h
            exact ih false inq (curr ++ [' ']) r h t ht
          | false =>
            rw [convertLoop_esc_space_nowine hw] at h
            exact Except.noConfusion h
        · rw [convertLoop_esc_other h1 hsp] at h
          exact ih false inq curr r h t ht
    | false =>
      cases inq with
      | true =>
        by_cases hdq : c = '"'
        · subst hdq
          rw [convertLoop_inq_quote] at h
          exact ih false false curr r h t ht
        · by_cases hb : c = bslash
          · subst hb
            rw [convertLoop_inq_bslash] at h
            exact ih true true curr r h t ht
          · rw [convertLoop_inq_other hdq hb] at h
            exact ih false true (curr ++ [c]) r h t ht
      | false =>
        by_cases hdq : c = '"'
        · subst hdq
          rw [convertLoop_out_quote] at h
          exact ih false true curr r h t ht
        · by_cases hsp : c = ' '
          · subst hsp
            by_cases hce : curr.isEmpty = true
            · rw [convertLoop_out_space_skip hq hce] at h
              exact ih false false curr r h t ht
            · have hcond : ¬ (q.multiple_spaces_in_exec = true ∧ curr.isEmpty = true) := by
                simp [hce]
              cases hm : convertLoop cs false false ([] : List Char) q with
              | error m =>
                rw [convertLoop_out_space_err hcond hm] at h
                exact Except.noConfusion h
              | ok r2 =>
                rw [convertLoop_out_space_ok hcond hm] at h
                simp only [Except.ok.injEq] at h
                subst h
                rcases List.mem_cons.mp ht with h0 | h0
                · subst h0
                  exact string_mk_ne_empty hce
                · exact ih false false ([] : List Char) r2 hm t h0
          · by_cases hb : c = bslash
            · subst hb
              cases hw : q.extra_wine_escaping with
              | true =>
                rw [convertLoop_out_bslash_wine hw] at h
                exact ih true false curr r h t ht
              | false =>
                rw [convertLoop_out_bslash_nowine hw] at h
                exact Except.noConfusion h
            · rw [convertLoop_out_other hdq hsp hb] at h
              exact ih false false (curr ++ [c]) r h t ht

/-- C5 amended: with the multiple-spaces quirk enabled, tokenization never
emits an empty token — a space outside quotes finalizes the current token
only when it is non-empty.  Without that quirk a space always finalizes
the current token, so consecutive spaces do produce empty elements, as the
counterexample shows. -/
theorem convert_ms_no_empty_token (e : String) (q : ParsingQuirks)
    (hq : q.multiple_spaces_in_exec = true) (ts : List String)
    (h : convert_exec_to_command e q = .ok ts) : ("" : String) ∉ ts := by
  intro habs
  exact convertLoop_ms_no_empty_token q hq e.data false false [] ts h "" habs rfl

/-- Witness for the amended C5 at the Exec field with two consecutive
spaces and the multiple-spaces quirk enabled. -/
theorem convert_ms_no_empty_token_witness : ("" : String) ∉ ["a", "b"] :=
  convert_ms_no_empty_token "a  b" ⟨false, true⟩ rfl ["a", "b"] rfl


theorem convertLoop_wine_never_errors :
    ∀ (cs : List Char) (esc inq : Bool) (curr : List Char) (ms : Bool),
      ∃ r, convertLoop cs esc inq curr ⟨true, ms⟩ = .ok r := by
  intro cs
  induction cs with
  | nil => intro esc inq curr ms; exact ⟨_, convertLoop_nil _ _ _ _⟩
  | cons c cs ih =>
    intro esc inq curr ms
    cases esc with
    | true =>
      by_cases h1 : c = '"' ∨ c = btick ∨ c = '$' ∨ c = bslash
      · rw [convertLoop_esc_allowed h1]
        exact ih false inq (curr ++ [c]) ms
      · by_cases hsp : c = ' '
        · subst hsp
          rw [convertLoop_esc_space_wine rfl]
          exact ih false inq (curr ++ [' ']) ms
        · rw [convertLoop_esc_other h1 hsp]
          exact ih false inq curr ms
    | false =>
      cases inq with
      | true =>
        by_cases hdq : c = '"'
        · subst hdq
          rw [convertLoop_inq_quote]
          exact ih false false curr ms
        · by_cases hb : c = bslash
          · subst hb
            rw [convertLoop_inq_bslash]
            exact ih true true curr ms
          · rw [convertLoop_inq_other hdq hb]
            exact ih false true (curr ++ [c]) ms
      | false =>
        by_cases hdq : c = '"'
        · subst hdq
          rw [convertLoop_out_quote]
          exact ih false true curr ms
        · by_cases hsp : c = ' '
          · subst hsp
            by_cases hcond : ((⟨true, ms⟩ : ParsingQuirks).multiple_spaces_in_exec = true
                ∧ curr.isEmpty = true)
            · rw [convertLoop_out_space_skip hcond.1 hcond.2]
              exact ih false false curr ms
            · obtain ⟨r, hr⟩ := ih false false ([] : List Char) ms
              exact ⟨String.mk curr :: r, convertLoop_out_space_ok hcond hr⟩
          · by_cases hb : c = bslash
            · subst hb
              rw [convertLoop_out_bslash_wine rfl]
              exact ih true false curr ms
            · rw [convertLoop_out_other hdq hsp hb]
              exact ih false false (curr ++ [c]) ms

/-- Counterexample to C6: `convert_exec_to_command` reports no error when
the Exec field ends inside a double-quoted section (the pending token is
emitted), nor when an escape sequence consists of a backslash followed by
a character outside the allowed set inside quotes (the sequence is
silently dropped). -/
theorem convert_error_counterexample :
    convert_exec_to_command "\"abc" ⟨false, false⟩ = .ok ["abc"] ∧
    convert_exec_to_command "\"a\\xb\"" ⟨false, false⟩ = .ok ["ab"] :=
  ⟨rfl, rfl⟩

/-- C6 amended: `convert_exec_to_command` raises `invalid_Exec` only with
`extra_wine_escaping` disabled, and then exactly at an unquoted backslash
or at the escape sequence backslash-space; with the quirk enabled it never
raises.  The field ending in any state (including inside quotes or while
escaping) is not an error — the pending non-empty token is emitted — and
an escape of a character outside the allowed set is consumed silently with
nothing appended. -/
theorem convert_error_characterization :
    (∀ (e : String) (ms : Bool), ∃ ts, convert_exec_to_command e ⟨true, ms⟩ = .ok ts) ∧
    (∀ (esc inq : Bool) (curr : List Char) (q : ParsingQuirks),
      convertLoop [] esc inq curr q
        = .ok (if curr.isEmpty then [] else [String.mk curr])) ∧
    (∀ (c : Char) (cs : List Char) (inq : Bool) (curr : List Char) (q : ParsingQuirks),
      ¬ (c = '"' ∨ c = btick ∨ c = '$' ∨ c = bslash) → c ≠ ' ' →
      convertLoop (c :: cs) true inq curr q = convertLoop cs false inq curr q) ∧
    (∀ (cs : List Char) (inq : Bool) (curr : List Char) (ms : Bool),
      convertLoop (' ' :: cs) true inq curr ⟨false, ms⟩
        = .error "Found invalid escape sequence `\\ ` in the Exec key!") ∧
    (∀ (cs : List Char) (curr : List Char) (ms : Bool),
      convertLoop (bslash :: cs) false false curr ⟨false, ms⟩
        = .error "Found \x27\\\x27 unquoted in Exec!") :=
  ⟨fun e ms => convertLoop_wine_never_errors e.data false false [] ms,
   convertLoop_nil,
   fun _ cs inq curr q h1 h2 => convertLoop_esc_other h1 h2 cs inq curr q,
   fun cs inq curr _ => convertLoop_esc_space_nowine rfl cs inq curr,
   fun cs curr _ => convertLoop_out_bslash_nowine rfl cs curr⟩

/-- Witness for the amended C6: a backslash-escaped `x` inside quotes is
dropped without an error. -/
theorem convert_error_characterization_witness :
    convertLoop ['x'] true false [] ⟨false, false⟩
      = convertLoop [] false false [] ⟨false, false⟩ :=
  convert_error_characterization.2.2.1 'x' [] false [] ⟨false, false⟩
    (by decide) (by decide)

/-- Counterexample to C7: the wine-style Exec field with quoted doubled
backslashes passes validation and tokenizes without error even with
`extra_wine_escaping` disabled, and each doubled backslash collapses to a
single one, so the resulting last token differs from the claimed one. -/
theorem wine_exec_counterexample :
    validate_exec_key "wine start /unix \"C:\\\\Program Files\\\\App\\\\app.exe\"" = none ∧
    convert_exec_to_command "wine start /unix \"C:\\\\Program Files\\\\App\\\\app.exe\""
        ⟨false, false⟩
      = .ok ["wine", "start", "/unix", "C:\\Program Files\\App\\app.exe"] ∧
    ("C:\\Program Files\\App\\app.exe" : String) ≠ "C:\\\\Program Files\\\\App\\\\app.exe" :=
  ⟨rfl, rfl, by decide⟩

/-- C7 amended: the Exec field `wine start /unix "C:\\Program
Files\\App\\app.exe"` validates, and tokenizes to the argv
`[wine, start, /unix, C:\Program Files\App\app.exe]` under every quirk
configuration — each quoted `\\` escape collapses to a single backslash
and the quirks play no role for this field. -/
theorem wine_exec_tokenization :
    ∀ wine ms : Bool,
      validate_exec_key "wine start /unix \"C:\\\\Program Files\\\\App\\\\app.exe\"" = none ∧
      convert_exec_to_command "wine start /unix \"C:\\\\Program Files\\\\App\\\\app.exe\""
          ⟨wine, ms⟩
        = .ok ["wine", "start", "/unix", "C:\\Program Files\\App\\app.exe"] := by
  intro wine ms
  cases wine <;> cases ms <;> exact ⟨rfl, rfl⟩

/-- Embedding of `wrap_cmdstring_in_shell` (CMDLineAssembler.cc, lines
214-216). -/
def wrap_cmdstring_in_shell (cmdstring : String) : List String :=
  ["/bin/sh", "-c", cmdstring]

/-- Embedding of `wrap_command_in_wrapper` (CMDLineAssembler.cc, lines
229-237): the five fixed elements followed by the command inserted at the
end. -/
def wrap_command_in_wrapper (command : List String) (wrapper : String) :
    List String :=
  ["/bin/sh", "-c", "wrap=\"$1\"; shift; $wrap \"$@\"", "/bin/sh", wrapper] ++ command

/-- C9: the shell wrap is exactly `/bin/sh -c cmdstring`, and the wrapper
wrap is exactly the five fixed elements — `/bin/sh`, `-c`, the fixed inner
script, `/bin/sh`, the wrapper string — followed by the original command
elements in order. -/
theorem wrap_spec :
    (∀ c : String, wrap_cmdstring_in_shell c = ["/bin/sh", "-c", c]) ∧
    (∀ (cmd : List String) (w : String),
      wrap_command_in_wrapper cmd w
          = ["/bin/sh", "-c", "wrap=\"$1\"; shift; $wrap \"$@\"", "/bin/sh", w] ++ cmd ∧
      (wrap_command_in_wrapper cmd w).take 5
          = ["/bin/sh", "-c", "wrap=\"$1\"; shift; $wrap \"$@\"", "/bin/sh", w] ∧
      (wrap_command_in_wrapper cmd w).drop 5 = cmd) :=
  ⟨fun _ => rfl, fun _ _ => ⟨rfl, rfl, rfl⟩⟩

/-- Embedding of the fill loop of `create_argv` (CMDLineAssembler.cc, lines
247-251): the command strings are written over the leading slots of the
null-initialized vector, one slot per iteration. -/
def fillArgv : List String → List (Option String) → List (Option String)
  | [], rest => rest
  | _ :: _, [] => []
  | a :: as, _ :: rest => some a :: fillArgv as rest

/-- Embedding of `create_argv` (CMDLineAssembler.cc, lines 239-256): the
`abort()` on an empty command is modelled as `none`; otherwise the result
is a vector of `command.size() + 1` entries initialized to null pointers
(`none`), with the command strings written in order over the first
`command.size()` entries. -/
def create_argv (command : List String) : Option (List (Option String)) :=
  if command.isEmpty then none
  else some (fillArgv command (List.replicate (command.length + 1) (none : Option String)))

theorem fillArgv_replicate :
    ∀ (as : List String) (k : Nat),
      fillArgv as (List.replicate (as.length + k) none)
        = as.map some ++ List.replicate k none := by
  intro as
  induction as with
  | nil => intro k; simp [fillArgv]
  | cons a as ih =>
    intro k
    have hlen : (a :: as).length + k = (as.length + k) + 1 := by
      simp only [List.length_cons]; omega
    rw [hlen, List.replicate_succ]
    show fillArgv (a :: as) (none :: List.replicate (as.length + k) none) = _
    simp [fillArgv, ih]

/-- C10: `create_argv` returns no vector for the empty command (it aborts);
for every non-empty command of n strings it returns exactly the n command
strings in order followed by the null terminator, a vector of n + 1
entries. -/
theorem create_argv_spec :
    create_argv [] = none ∧
    ∀ cmd : List String, cmd ≠ [] →
      create_argv cmd = some (cmd.map some ++ [none]) ∧
      ∀ r, create_argv cmd = some r → r.length = cmd.length + 1 := by
  refine ⟨rfl, fun cmd hne => ?_⟩
  have hE : cmd.isEmpty = false := by
    cases cmd with
    | nil => exact absurd rfl hne
    | cons a as => rfl
  have hmain : create_argv cmd = some (cmd.map some ++ [none]) := by
    show (if cmd.isEmpty then none
      else some (fillArgv cmd (List.replicate (cmd.length + 1) none)))
        = some (cmd.map some ++ [none])
    rw [hE]
    simpa using congrArg some (fillArgv_replicate cmd 1)
  refine ⟨hmain, fun r hr => ?_⟩
  rw [hmain] at hr
  simp only [Option.some.injEq] at hr
  subst hr
  simp

/-- Witness for C10 at the one-element command. -/
theorem create_argv_spec_witness :
    create_argv ["ls"] = some (["ls"].map some ++ [none]) ∧
    ∀ r, create_argv ["ls"] = some r → r.length = ["ls"].length + 1 :=
  create_argv_spec.2 ["ls"] (by decide)

end CMDLineAssembly

namespace J4Main

/-- Embedding of the history branch of `do_dmenu` (main.cc, lines 151-200):
the mapping keys are first collected into an ordered set (here the list
`names`, already in comparator order and without duplicates); then for
every history entry, in history order, the entry is written and erased
from the set when its name is still present, and only logged otherwise;
finally the remaining set is written in its order.  `hist` is the
`HistoryManager::view()` sequence of (count, name) pairs, modelled from
the spec as given in history order.  The result is the sequence of lines
written to dmenu. -/
def write_names : List (Nat × String) → List String → List String
  | [], names => names
  | (_, n) :: hs, names =>
    if n ∈ names then n :: write_names hs (names.erase n)
    else write_names hs names

/-- Lines one menu session sends to dmenu when a history is present:
the mapping keys in comparator order are filtered through the history as
in `do_dmenu`. -/
def do_dmenu_lines (mappingKeys : List String) (hist : List (Nat × String)) :
    List String :=
  write_names hist mappingKeys

/-- C4: with a history present, the menu receives first the history names
in history order restricted to those present in the current name mapping
(absent ones are skipped), then the remaining mapping keys in comparator
order; every key is written at most once, history order taking precedence.
On catalog `[A, B, C]` with history `[(3, B), (1, A)]` the menu receives
`B, A, C`. -/
theorem do_dmenu_lines_spec :
    (∀ (keys : List String) (hist : List (Nat × String)),
      keys.Nodup → (hist.map Prod.snd).Nodup →
      do_dmenu_lines keys hist
        = (hist.map Prod.snd).filter (fun n => decide (n ∈ keys))
          ++ keys.filter (fun k => decide (k ∉ hist.map Prod.snd))) ∧
    do_dmenu_lines ["A", "B", "C"] [(3, "B"), (1, "A")] = ["B", "A", "C"] := by
  constructor
  · intro keys hist
    induction hist generalizing keys with
    | nil =>
      intro hk hh
      simp [do_dmenu_lines, write_names]
    | cons p hs ih =>
      obtain ⟨c, n⟩ := p
      intro hk hh
      simp only [List.map_cons, List.nodup_cons] at hh
      obtain ⟨hn, hh2⟩ := hh
      show write_names ((c, n) :: hs) keys = _
      by_cases hmem : n ∈ keys
      · have hstep : write_names ((c, n) :: hs) keys
            = n :: write_names hs (keys.erase n) := by
          simp [write_names, hmem]
        rw [hstep]
        have hrec := ih (keys.erase n) (hk.erase n) hh2
        rw [show write_names hs (keys.erase n) = do_dmenu_lines (keys.erase n) hs from rfl,
          hrec]
        have hfilter1 : (hs.map Prod.snd).filter (fun x => decide (x ∈ keys.erase n))
            = (hs.map Prod.snd).filter (fun x => decide (x ∈ keys)) := by
          refine List.filter_congr ?_
          intro x hx
          have hxn : x ≠ n := fun habs => hn (habs ▸ hx)
          rw [decide_eq_decide]
          rw [List.Nodup.mem_erase_iff hk]
          simp [hxn]
        have hfilter2 : (keys.erase n).filter (fun x => decide (x ∉ hs.map Prod.snd))
            = keys.filter (fun x => decide (x ∉ n :: hs.map Prod.snd)) := by
          rw [List.Nodup.erase_eq_filter hk n, List.filter_filter]
          refine List.filter_congr ?_
          intro x hx
          by_cases hxn : x = n
          · subst hxn
            simp
          · by_cases hxh : x ∈ hs.map Prod.snd <;> simp [hxn, hxh]
        rw [hfilter1, hfilter2]
        simp [hmem]
      · have hstep : write_names ((c, n) :: hs) keys = write_names hs keys := by
          simp [write_names, hmem]
        rw [hstep]
        have hrec := ih keys hk hh2
        rw [show write_names hs keys = do_dmenu_lines keys hs from rfl, hrec]
        have hfilter2 : keys.filter (fun x => decide (x ∉ hs.map Prod.snd))
            = keys.filter (fun x => decide (x ∉ n :: hs.map Prod.snd)) := by
          refine List.filter_congr ?_
          intro x hx
          have hxn : x ≠ n := fun habs => hmem (habs ▸ hx)
          by_cases hxh : x ∈ hs.map Prod.snd <;> simp [hxn, hxh]
        rw [hfilter2]
        simp [hmem]
  · decide

/-- Witness for C4: applying the general ordering theorem to the spec
example `catalog [A, B, C]`, `history [(3, B), (1, A)]` yields the lines
`B, A, C`. -/
theorem do_dmenu_lines_spec_witness :
    do_dmenu_lines ["A", "B", "C"] [(3, "B"), (1, "A")] = ["B", "A", "C"] :=
  (do_dmenu_lines_spec.1 ["A", "B", "C"] [(3, "B"), (1, "A")]
    (by decide) (by decide)).trans (by decide)

/-- Modelled from the spec: the key equivalence induced by DynamicCompare —
plain equality when case-sensitive, equality of the case-folded keys when
case-insensitive. -/
def dynamicEquiv (case_insensitive : Bool) (a b : String) : Bool :=
  if case_insensitive then a.toLower == b.toLower else a == b

/-- Modelled from the spec: `std::map::try_emplace` under the equivalence
`eqv` induced by the comparator — the new pair is inserted only when no
equivalent key is present, so the first insertion wins.  The comparator
order of the entries plays no role in the uniqueness and first-wins
claims, so entries are kept in insertion order. -/
def try_emplace {α : Type} (eqv : String → String → Bool)
    (m : List (String × α)) (k : String) (v : α) : List (String × α) :=
  if m.any (fun e => eqv e.1 k) then m else m ++ [(k, v)]

/-- Loop of `format_name_app_mapping` (main.cc, lines 130-143): fold the
original name-application pairs through `try_emplace` of the formatted
key. -/
def format_mapping_go {α : Type} (eqv : String → String → Bool)
    (format : String → α → String) :
    List (String × α) → List (String × α) → List (String × α)
  | [], acc => acc
  | (k, a) :: rest, acc =>
    format_mapping_go eqv format rest (try_emplace eqv acc (format k a) a)

/-- Embedding of `format_name_app_mapping` (main.cc, lines 130-143):
starting from the empty map, `try_emplace` every formatted key. -/
def format_name_app_mapping {α : Type} (eqv : String → String → Bool)
    (format : String → α → String) (apps : List (String × α)) :
    List (String × α) :=
  format_mapping_go eqv format apps []

theorem format_mapping_go_pairwise {α : Type} (eqv : String → String → Bool)
    (format : String → α → String) :
    ∀ (apps acc : List (String × α)),
      List.Pairwise (fun x y => eqv x.1 y.1 = false) acc →
      List.Pairwise (fun x y => eqv x.1 y.1 = false)
        (format_mapping_go eqv format apps acc) := by
  intro apps
  induction apps with
  | nil => intro acc hacc; exact hacc
  | cons p rest ih =>
    obtain ⟨k, a⟩ := p
    intro acc hacc
    refine ih _ ?_
    show List.Pairwise _ (try_emplace eqv acc (format k a) a)
    by_cases hany : acc.any (fun e => eqv e.1 (format k a))
    · simpa [try_emplace, hany] using hacc
    · have hforall : ∀ e ∈ acc, eqv e.1 (format k a) = false := by
        intro e he
        cases h : eqv e.1 (format k a)
        · rfl
        · exact absurd (List.any_eq_true.mpr ⟨e, he, h⟩) hany
      have : try_emplace eqv acc (format k a) a = acc ++ [(format k a, a)] := by
        simp [try_emplace, hany]
      rw [this, List.pairwise_append]
      refine ⟨hacc, by simp, ?_⟩
      intro x hx y hy
      rw [List.mem_singleton] at hy
      subst hy
      exact hforall x hx

theorem format_mapping_go_find {α : Type} (eqv : String → String → Bool)
    (format : String → α → String)
    (hE : Equivalence (fun a b => eqv a b = true)) (key : String) :
    ∀ (apps acc : List (String × α)),
      (format_mapping_go eqv format apps acc).find? (fun e => eqv e.1 key)
        = ((acc.find? (fun e => eqv e.1 key)).or
            ((apps.map (fun p => (format p.1 p.2, p.2))).find? (fun e => eqv e.1 key))) := by
  intro apps
  induction apps with
  | nil =>
    intro acc
    simp [format_mapping_go]
  | cons p rest ih =>
    obtain ⟨k0, a0⟩ := p
    intro acc
    show (format_mapping_go eqv format rest (try_emplace eqv acc (format k0 a0) a0)).find? _ = _
    rw [ih]
    by_cases hany : acc.any (fun e => eqv e.1 (format k0 a0))
    · have hte : try_emplace eqv acc (format k0 a0) a0 = acc := by
        simp [try_emplace, hany]
      rw [hte]
      cases hacc : acc.find? (fun e => eqv e.1 key) with
      | some e => simp
      | none =>
        have hnothit : eqv (format k0 a0) key = false := by
          obtain ⟨e0, he0, heq0⟩ := List.any_eq_true.mp hany
          by_contra habs
          have hhit : eqv (format k0 a0) key = true := by
            cases h : eqv (format k0 a0) key
            · exact absurd h habs
            · rfl
          have h0 : eqv e0.1 key = true := hE.trans (by simpa using heq0) hhit
          have := List.find?_eq_none.mp hacc e0 he0
          simp [h0] at this
        simp only [Option.none_or, List.map_cons, List.find?_cons]
        rw [hnothit]
    · have hte : try_emplace eqv acc (format k0 a0) a0 = acc ++ [(format k0 a0, a0)] := by
        simp [try_emplace, hany]
      rw [hte, List.find?_append]
      cases hacc : acc.find? (fun e => eqv e.1 key) with
      | some e => simp
      | none =>
        simp only [Option.none_or, List.map_cons, List.find?_cons]
        cases hhit : eqv (format k0 a0) key with
        | true => rfl
        | false => rfl

/-- C8: the constructed name mapping has no two entries with equivalent
keys under the active comparator, and on key collisions the first
insertion wins — looking an equivalent key up in the built mapping gives
exactly the first matching formatted entry of the input. -/
theorem format_name_app_mapping_spec {α : Type} (eqv : String → String → Bool)
    (format : String → α → String) (apps : List (String × α)) :
    List.Pairwise (fun x y => eqv x.1 y.1 = false)
      (format_name_app_mapping eqv format apps) ∧
    (Equivalence (fun a b => eqv a b = true) → ∀ key,
      (format_name_app_mapping eqv format apps).find? (fun e => eqv e.1 key)
        = (apps.map (fun p => (format p.1 p.2, p.2))).find? (fun e => eqv e.1 key)) := by
  constructor
  · exact format_mapping_go_pairwise eqv format apps [] (by simp)
  · intro hE key
    have h := format_mapping_go_find eqv format hE key apps []
    simpa using h

/-- Witness for C8 with the case-sensitive equivalence and two applications
formatting to the same key: lookup in the built mapping returns the first
one. -/
theorem format_name_app_mapping_spec_witness :
    (format_name_app_mapping (fun a b => a == b) (fun _ _ => "X")
        [("a", (1 : Nat)), ("b", (2 : Nat))]).find? (fun e => e.1 == "X")
      = ([("a", (1 : Nat)), ("b", (2 : Nat))].map
          (fun p => ((fun _ _ => "X") p.1 p.2, p.2))).find? (fun e => e.1 == "X") :=
  (format_name_app_mapping_spec (fun a b => a == b) (fun _ _ => "X")
      [("a", (1 : Nat)), ("b", (2 : Nat))]).2
    ⟨fun a => by simp, fun h => by simp_all, fun h1 h2 => by simp_all⟩ "X"

end J4Main
